import Mathlib

/-!
Verification development for the `ai_pipeline` pipeline builder
(`src/ai_pipeline/pipelines.py`).

The source builds a mutable tree of `_Component` objects under a
`BasePipeline`, assigns sequential integer ids (the synthetic root has id
-1), and flattens the tree into vertex/edge lists with a stack-based
traversal (`to_graph`, `print_structure`).  `KfpPipeline` additionally
assembles JSON parameter blobs from a model descriptor.

This file gives a shallow embedding of that code and proves the spec's
testable properties about it.
-/

/-- A Python value as it appears in the component parameter maps.
`vnone` models Python's `None` (which is also the default of every
optional keyword argument of the add-step operations). -/
inductive PVal where
  | vnone : PVal
  | vint (n : Int) : PVal
  | vstr (s : String) : PVal
deriving DecidableEq, Repr

/-- A component parameter map: a Python dict modelled as an insertion
ordered association list. -/
abbrev Params := List (String × PVal)

/-- Embeds the dict comprehension
`params = {k: v for k, v in params.items() if v is not None}`
used by every add-step operation of `BasePipeline`. -/
def filterNotNone (l : List (String × PVal)) : Params :=
  l.filter (fun kv => decide (kv.2 ≠ PVal.vnone))

/-- `_Component`: a pipeline component behaving like a tree node, with a
`role`, an integer `comp_id`, a parameter map and an ordered list of
children (`self.children = []` at creation, extended by `add_child`). -/
inductive Component where
  | mk (role : String) (id : Int) (params : Params) (children : List Component)

/-- `self.role` of a `_Component`. -/
def Component.role : Component → String
  | .mk r _ _ _ => r

/-- `self.id` of a `_Component`. -/
def Component.id : Component → Int
  | .mk _ i _ _ => i

/-- `self.params` of a `_Component`. -/
def Component.params : Component → Params
  | .mk _ _ ps _ => ps

/-- `self.children` of a `_Component`. -/
def Component.children : Component → List Component
  | .mk _ _ _ ch => ch

/-- `_Component.add_child(self, comp)`: `self.children.append(comp)`. -/
def Component.add_child (c child : Component) : Component :=
  match c with
  | .mk r i ps ch => .mk r i ps (ch ++ [child])

mutual

/-- All nodes of the subtree rooted at a component, in preorder
(the component itself first). -/
def Component.nodes : Component → List Component
  | .mk r i ps ch => .mk r i ps ch :: Component.nodesList ch

/-- All nodes of the subtrees rooted at a list of components. -/
def Component.nodesList : List Component → List Component
  | [] => []
  | c :: cs => c.nodes ++ Component.nodesList cs

end

mutual

/-- All (parent id, child id) edges of the subtree rooted at a component. -/
def Component.edges : Component → List (Int × Int)
  | .mk r i ps ch =>
      (ch.map fun x => (i, Component.id x)) ++ Component.edgesList ch

/-- All edges of the subtrees rooted at a list of components. -/
def Component.edgesList : List Component → List (Int × Int)
  | [] => []
  | c :: cs => c.edges ++ Component.edgesList cs

end

/-- The ids occurring in the subtree rooted at a component. -/
def Component.idsOf (c : Component) : List Int :=
  c.nodes.map Component.id

/-- The ids occurring in a list of subtrees. -/
def Component.idsL (l : List Component) : List Int :=
  (Component.nodesList l).map Component.id

mutual

/-- In the Python source, `parent.add_child(component)` mutates the node
`parent`, which is shared with the tree hanging off the pipeline's root.
In this functional embedding the same effect is obtained by rebuilding
the tree, appending `child` to the children of every node whose id is
`pid` (in any pipeline built by add-step calls, ids are unique, so this
is exactly the one node the caller holds a reference to). -/
def addChildAt (pid : Int) (child : Component) : Component → Component
  | .mk r i ps ch =>
    if i = pid then Component.add_child (.mk r i ps ch) child
    else .mk r i ps (addChildAtL pid child ch)

/-- `addChildAt` mapped over a list of subtrees. -/
def addChildAtL (pid : Int) (child : Component) : List Component → List Component
  | [] => []
  | c :: cs => addChildAt pid child c :: addChildAtL pid child cs

end

/-- The `BasePipeline` state: the synthetic root component
(`self.structure`) and the node counter (`self.size`).  The model object
and the job id are handled separately (see `job_id`), since they play no
role in the tree-building operations. -/
structure BasePipeline where
  structure_ : Component
  size : Nat

/-- `BasePipeline.__init__`:
`self.structure = _Component("start", -1)` and `self.size = 0`. -/
def BasePipeline.init : BasePipeline :=
  ⟨Component.mk "start" (-1) [] [], 0⟩

/-- `if not parent: parent = self.structure` — a component reference is
always truthy in Python, so only an omitted (`None`) parent falls back to
the root (id -1).  A caller-supplied reference is modelled by the id of
the referenced node (`some (-1)` is an explicitly passed root). -/
def resolveParent : Option Int → Int
  | none => -1
  | some i => i

/-- `BasePipeline.add_train_component(self, parent=None, wait_interval=None)`:
builds `params = {"wait_interval": wait_interval}` filtered by
`v is not None`, creates `_Component("train", self.size, params=params)`,
calls `parent.add_child(component)`, increments `self.size` and returns
the component. -/
def BasePipeline.add_train_component (p : BasePipeline) (parent : Option Int)
    (wait_interval : PVal) : BasePipeline × Component :=
  let parentId := resolveParent parent
  let params := filterNotNone [("wait_interval", wait_interval)]
  let component := Component.mk "train" (Int.ofNat p.size) params []
  (⟨addChildAt parentId component p.structure_, p.size + 1⟩, component)

/-- `BasePipeline.add_deploy_component(self, parent=None, model_uri=None,
wait_interval=None)`: params `{"model_uri": ..., "wait_interval": ...}`
filtered by `v is not None`; role `"deploy"`; otherwise as for train. -/
def BasePipeline.add_deploy_component (p : BasePipeline) (parent : Option Int)
    (model_uri wait_interval : PVal) : BasePipeline × Component :=
  let parentId := resolveParent parent
  let params := filterNotNone
    [("model_uri", model_uri), ("wait_interval", wait_interval)]
  let component := Component.mk "deploy" (Int.ofNat p.size) params []
  (⟨addChildAt parentId component p.structure_, p.size + 1⟩, component)

/-- `BasePipeline.add_predict_component(self, parent=None, model=None,
version=None)`: params `{"model_id": model, "version_id": version}`
filtered by `v is not None`; role `"predict"`. -/
def BasePipeline.add_predict_component (p : BasePipeline) (parent : Option Int)
    (model version : PVal) : BasePipeline × Component :=
  let parentId := resolveParent parent
  let params := filterNotNone
    [("model_id", model), ("version_id", version)]
  let component := Component.mk "predict" (Int.ofNat p.size) params []
  (⟨addChildAt parentId component p.structure_, p.size + 1⟩, component)

/-- One add-step call of a call sequence.  `parent` is the id of the
component reference the caller passes (`none` = omitted); the remaining
arguments are the optional keyword arguments (`PVal.vnone` = omitted,
exactly as Python's `None` default). -/
inductive AddCall where
  | train (parent : Option Int) (wait_interval : PVal)
  | deploy (parent : Option Int) (model_uri wait_interval : PVal)
  | predict (parent : Option Int) (model version : PVal)

/-- The parent argument of an add-step call. -/
def AddCall.parent : AddCall → Option Int
  | .train p _ => p
  | .deploy p _ _ => p
  | .predict p _ _ => p

/-- Performs one add-step call, accumulating the returned components. -/
def stepCall (acc : BasePipeline × List Component) (c : AddCall) :
    BasePipeline × List Component :=
  match c with
  | .train parent wi =>
      let r := acc.1.add_train_component parent wi
      (r.1, acc.2 ++ [r.2])
  | .deploy parent mu wi =>
      let r := acc.1.add_deploy_component parent mu wi
      (r.1, acc.2 ++ [r.2])
  | .predict parent m v =>
      let r := acc.1.add_predict_component parent m v
      (r.1, acc.2 ++ [r.2])

/-- Runs a sequence of add-step calls on a fresh pipeline, returning the
final pipeline and the list of components the calls returned. -/
def runCalls (calls : List AddCall) : BasePipeline × List Component :=
  calls.foldl stepCall (BasePipeline.init, [])

/-- A call's parent argument is valid at position `i` when it is omitted,
the root, or a component created by an earlier call — the only references
a Python caller can actually hold. -/
def parentOk (i : Nat) : Option Int → Bool
  | none => true
  | some pid => pid == -1 || (decide (0 ≤ pid) && decide (pid < (i : Int)))

/-- All parents valid, for the calls from position `i` on. -/
def wfCallsFrom (i : Nat) : List AddCall → Bool
  | [] => true
  | c :: cs => parentOk i c.parent && wfCallsFrom (i + 1) cs

/-- A well-formed call sequence: every call's parent is a previously
created component or the root. -/
def wfCalls (calls : List AddCall) : Bool :=
  wfCallsFrom 0 calls

/-- The (parent id, child id) links created by the calls from position
`i` on: call `i` attaches the fresh node `i` under its resolved parent. -/
def createdEdgesFrom (i : Nat) : List AddCall → List (Int × Int)
  | [] => []
  | c :: cs => (resolveParent c.parent, Int.ofNat i) :: createdEdgesFrom (i + 1) cs

/-- All parent→child links created by a call sequence. -/
def createdEdges (calls : List AddCall) : List (Int × Int) :=
  createdEdgesFrom 0 calls

/-- The visit order of the stack-based `while next_comps:` loops of
`to_graph` and `print_structure`.  The Python stack pops from the END of
the list; here the stack's top is the HEAD of the list, so
`next_comps.extend(comp.children)` (which makes the LAST child the next
to be popped) becomes pushing `comp.children.reverse`. -/
def visit : List Component → List Component
  | [] => []
  | c :: rest => c :: visit (c.children.reverse ++ rest)
termination_by s => (Component.nodesList s).length
decreasing_by
  have hnodes : ∀ x : Component, x.nodes = x :: Component.nodesList x.children := by
    intro x; cases x; rfl
  have happ : ∀ a b : List Component,
      Component.nodesList (a ++ b) = Component.nodesList a ++ Component.nodesList b := by
    intro a b
    induction a with
    | nil => rfl
    | cons x xs ih => simp [Component.nodesList, ih, List.append_assoc]
  have hrev : ∀ a : List Component,
      (Component.nodesList a.reverse).length = (Component.nodesList a).length := by
    intro a
    induction a with
    | nil => rfl
    | cons x xs ih =>
        simp [List.reverse_cons, happ, Component.nodesList, List.length_append, ih]
        all_goals omega
  simp [Component.nodesList, happ, List.length_append, hrev, hnodes]

/-- The body of the `while next_comps:` loop of `BasePipeline.to_graph`:
pop `comp`, `next_comps.extend(comp.children)`, store `comp` at index
`comp.id` unless it is the root, and append the `(comp.id, child.id)`
pairs.  Stack representation as in `visit`.  (`List.set` at `comp.id` is
adequate because in any pipeline built by add-step calls every non-root
id lies in `[0, size)`.) -/
def toGraphAux : List Component → List (Option Component) → List (Int × Int) →
    List (Option Component) × List (Int × Int)
  | [], components, relations => (components, relations)
  | comp :: rest, components, relations =>
      toGraphAux (comp.children.reverse ++ rest)
        (if comp.id ≠ -1 then components.set comp.id.toNat (some comp) else components)
        (relations ++ comp.children.map fun child => (comp.id, child.id))
termination_by s _ _ => (Component.nodesList s).length
decreasing_by
  have hnodes : ∀ x : Component, x.nodes = x :: Component.nodesList x.children := by
    intro x; cases x; rfl
  have happ : ∀ a b : List Component,
      Component.nodesList (a ++ b) = Component.nodesList a ++ Component.nodesList b := by
    intro a b
    induction a with
    | nil => rfl
    | cons x xs ih => simp [Component.nodesList, ih, List.append_assoc]
  have hrev : ∀ a : List Component,
      (Component.nodesList a.reverse).length = (Component.nodesList a).length := by
    intro a
    induction a with
    | nil => rfl
    | cons x xs ih =>
        simp [List.reverse_cons, happ, Component.nodesList, List.length_append, ih]
        all_goals omega
  simp [Component.nodesList, happ, List.length_append, hrev, hnodes]

/-- `BasePipeline.to_graph`: `components = [None] * self.size`,
`relations = []`, `next_comps = [self.structure]`, then the loop. -/
def BasePipeline.to_graph (p : BasePipeline) :
    List (Option Component) × List (Int × Int) :=
  toGraphAux [p.structure_] (List.replicate p.size none) []

/-- The loop of `BasePipeline.print_structure`, collecting the printed
lines: for every popped non-root component, the pair of its id and the
ids of its children. -/
def printStructAux : List Component → List (Int × List Int)
  | [] => []
  | comp :: rest =>
      (if comp.id ≠ -1 then [(comp.id, comp.children.map Component.id)] else []) ++
        printStructAux (comp.children.reverse ++ rest)
termination_by s => (Component.nodesList s).length
decreasing_by
  have hnodes : ∀ x : Component, x.nodes = x :: Component.nodesList x.children := by
    intro x; cases x; rfl
  have happ : ∀ a b : List Component,
      Component.nodesList (a ++ b) = Component.nodesList a ++ Component.nodesList b := by
    intro a b
    induction a with
    | nil => rfl
    | cons x xs ih => simp [Component.nodesList, ih, List.append_assoc]
  have hrev : ∀ a : List Component,
      (Component.nodesList a.reverse).length = (Component.nodesList a).length := by
    intro a
    induction a with
    | nil => rfl
    | cons x xs ih =>
        simp [List.reverse_cons, happ, Component.nodesList, List.length_append, ih]
        all_goals omega
  simp [Component.nodesList, happ, List.length_append, hrev, hnodes]

/-- `BasePipeline.print_structure`, as the list of printed
`(comp.id, [x.id for x in comp.children])` lines. -/
def BasePipeline.print_structure (p : BasePipeline) : List (Int × List Int) :=
  printStructAux [p.structure_]

/-- The `to_graph` loop with explicit fuel: `none` means the fuel ran out
with the loop condition `while next_comps:` still true.  Used to reason
about termination of the unbounded Python loop. -/
def toGraphFuel : Nat → List Component → List (Option Component) →
    List (Int × Int) → Option (List (Option Component) × List (Int × Int))
  | _, [], components, relations => some (components, relations)
  | 0, _ :: _, _, _ => none
  | fuel + 1, comp :: rest, components, relations =>
      toGraphFuel fuel (comp.children.reverse ++ rest)
        (if comp.id ≠ -1 then components.set comp.id.toNat (some comp) else components)
        (relations ++ comp.children.map fun child => (comp.id, child.id))



/-- A `_Component` at the reference level: children are stored as the ids
of the referenced component objects.  This second view of the same data
structure makes the sharing explicit that Python's object references
provide, so that the caller error of building a cycle with `add_child`
becomes expressible. -/
structure HComp where
  role : String
  id : Int
  params : Params
  children : List Int

/-- The object store of the reference-level view, addressed by id. -/
abbrev Heap := List HComp

/-- The heap right after `BasePipeline.__init__`: only the synthetic root
`_Component("start", -1)`. -/
def hinit : Heap :=
  [⟨"start", -1, [], []⟩]

/-- `parent.add_child(comp)` at the reference level: append `cid` to the
children of the object whose id is `pid`. -/
def haddChild (heap : Heap) (pid cid : Int) : Heap :=
  heap.map fun r =>
    if r.id == pid then ⟨r.role, r.id, r.params, r.children ++ [cid]⟩ else r

/-- `add_train_component` at the reference level: attach a fresh train
node with id `size` under `parentId` and allocate it. -/
def haddTrain (heap : Heap) (size : Nat) (parentId : Int) (wait_interval : PVal) :
    Heap :=
  haddChild heap parentId (Int.ofNat size) ++
    [⟨"train", Int.ofNat size, filterNotNone [("wait_interval", wait_interval)], []⟩]

/-- The children ids of the object with id `i`. -/
def hchildren (heap : Heap) (i : Int) : List Int :=
  match heap.find? (fun r => r.id == i) with
  | some r => r.children
  | none => []

/-- One iteration of the `while next_comps:` traversal loop at the
reference level (stack of ids, top at the head, children pushed reversed
exactly as in `visit`).  An empty stack stays empty: the loop has exited. -/
def hstep (heap : Heap) : List Int → List Int
  | [] => []
  | top :: rest => (hchildren heap top).reverse ++ rest

/-- The traversal stack after `n` loop iterations. -/
def hiter (heap : Heap) : Nat → List Int → List Int
  | 0, s => s
  | n + 1, s => hiter heap n (hstep heap s)

/-- The heap after `comp = pipeline.add_train_component()` followed by
the caller error `comp.add_child(comp)`: node 0 is its own child. -/
def cyclicHeap : Heap :=
  haddChild (haddTrain hinit 0 (-1) PVal.vnone) 0 0

/-- A wall-clock instant as read by `datetime.datetime.now()`, together
with its Unix epoch second count (what the `%s` directive prints). -/
structure DateTime where
  year : Nat
  month : Nat
  day : Nat
  hour : Nat
  minute : Nat
  second : Nat
  epochSeconds : Nat

/-- Zero-padded two-digit decimal rendering, as used by the numeric
two-digit `strftime` directives. -/
def pad2 (n : Nat) : String :=
  if n < 10 then "0" ++ toString n else toString n

/-- The abbreviated month name, as printed by the `%h` (alias of `%b`)
directive of C/glibc `strftime`, to which Python's
`datetime.strftime` delegates. -/
def monthAbbrev : Nat → String
  | 1 => "Jan"
  | 2 => "Feb"
  | 3 => "Mar"
  | 4 => "Apr"
  | 5 => "May"
  | 6 => "Jun"
  | 7 => "Jul"
  | 8 => "Aug"
  | 9 => "Sep"
  | 10 => "Oct"
  | 11 => "Nov"
  | 12 => "Dec"
  | _ => "?"

/-- One `strftime` conversion directive (C/glibc semantics, the backend
of Python's `datetime.strftime` on Linux): `%y` two-digit year, `%m`
two-digit month, `%d` two-digit day, `%H`/`%M`/`%S` two-digit hour,
minute, second, `%h` abbreviated month name, `%s` seconds since the Unix
epoch. -/
def strfDirective (t : DateTime) (c : Char) : String :=
  if c = 'y' then pad2 (t.year % 100)
  else if c = 'm' then pad2 t.month
  else if c = 'd' then pad2 t.day
  else if c = 'H' then pad2 t.hour
  else if c = 'M' then pad2 t.minute
  else if c = 'S' then pad2 t.second
  else if c = 'h' then monthAbbrev t.month
  else if c = 's' then toString t.epochSeconds
  else String.singleton '%' ++ String.singleton c

/-- `strftime` over a character list: `%` introduces a directive, every
other character is copied. -/
def strftimeChars (t : DateTime) : List Char → String
  | [] => ""
  | '%' :: c :: rest => strfDirective t c ++ strftimeChars t rest
  | c :: rest => String.singleton c ++ strftimeChars t rest

/-- `now.strftime(fmt)` for a format string. -/
def strftime (t : DateTime) (fmt : String) : String :=
  strftimeChars t fmt.toList

/-- `BasePipeline.__init__`'s job id:
`now = dt.datetime.now().strftime("%y%m%d_%h%m%s")` and
`self.job_id = "{}_{}".format(self.model.model["name"], now)`,
with the clock passed explicitly. -/
def job_id (model_name : String) (t : DateTime) : String :=
  model_name ++ "_" ++ strftime t "%y%m%d_%h%m%s"

/-- The job id the spec describes: the model name, an underscore, and a
timestamp of two-digit year, month, day, hour, minute and second (the
format `%y%m%d_%H%M%S`, matching the literal underscore the code's format
string contains). -/
def job_id_spec (model_name : String) (t : DateTime) : String :=
  model_name ++ "_" ++ strftime t "%y%m%d_%H%M%S"

/-- 2020-01-02 03:04:05 UTC. -/
def sampleTime : DateTime :=
  ⟨2020, 1, 2, 3, 4, 5, 1577934245⟩

/-- The fields `KfpPipeline._get_deploy_params` reads off the externally
supplied model descriptor: `model.model["name"]`, `model.project_id`,
`model.runtime_version`, `model.python_version`, `model.framework` and
`model.get_model_dir()`. -/
structure KModel where
  name : String
  project_id : String
  runtime_version : String
  python_version : String
  framework : String
  model_dir : String

/-- `KfpPipeline._get_deploy_params`, modelled as the insertion-ordered
key/value map handed to `json.dumps`: the four fixed keys, then
`params["model_uri"] = model.get_model_dir()` exactly when
`model.framework != "tensorflow"`. -/
def get_deploy_params (m : KModel) : List (String × String) :=
  let params :=
    [("project_id", m.project_id),
     ("model_id", m.name ++ "_kfp"),
     ("runtime_version", m.runtime_version),
     ("python_version", m.python_version)]
  if m.framework ≠ "tensorflow" then params ++ [("model_uri", m.model_dir)]
  else params

/-- The scenario call sequence of the spec: `add_train_component()`, then
`add_deploy_component(parent=<that node>, model_uri="gs://x")`, then
`add_predict_component(parent=<root>)`. -/
def scenarioCalls : List AddCall :=
  [AddCall.train none PVal.vnone,
   AddCall.deploy (some 0) (PVal.vstr "gs://x") PVal.vnone,
   AddCall.predict (some (-1)) PVal.vnone PVal.vnone]

/-! ### Basic structural lemmas -/

theorem Component.role_mk (r : String) (i : Int) (ps : Params)
    (ch : List Component) : (Component.mk r i ps ch).role = r := rfl

theorem Component.id_mk (r : String) (i : Int) (ps : Params)
    (ch : List Component) : (Component.mk r i ps ch).id = i := rfl

theorem Component.params_mk (r : String) (i : Int) (ps : Params)
    (ch : List Component) : (Component.mk r i ps ch).params = ps := rfl

theorem Component.children_mk (r : String) (i : Int) (ps : Params)
    (ch : List Component) : (Component.mk r i ps ch).children = ch := rfl

theorem Component.nodes_def (c : Component) :
    c.nodes = c :: Component.nodesList c.children := by
  cases c
  simp [Component.nodes, Component.children]

theorem Component.nodesList_nil : Component.nodesList [] = [] := by
  simp [Component.nodesList]

theorem Component.nodesList_cons (c : Component) (cs : List Component) :
    Component.nodesList (c :: cs) = c.nodes ++ Component.nodesList cs := by
  simp [Component.nodesList]

theorem Component.nodesList_append (a b : List Component) :
    Component.nodesList (a ++ b) =
      Component.nodesList a ++ Component.nodesList b := by
  induction a with
  | nil => simp [Component.nodesList]
  | cons x xs ih => simp [Component.nodesList, ih]

theorem Component.nodesList_reverse_perm (a : List Component) :
    (Component.nodesList a.reverse).Perm (Component.nodesList a) := by
  induction a with
  | nil => simp
  | cons x xs ih =>
      rw [List.reverse_cons, Component.nodesList_append, Component.nodesList_cons,
        Component.nodesList_nil, List.append_nil, Component.nodesList_cons]
      exact (ih.append_right _).trans List.perm_append_comm

theorem Component.edges_def (c : Component) :
    c.edges = (c.children.map fun x => (c.id, x.id)) ++
      Component.edgesList c.children := by
  cases c
  simp [Component.edges, Component.children, Component.id]

theorem Component.edgesList_nil : Component.edgesList [] = [] := by
  simp [Component.edgesList]

theorem Component.edgesList_cons (c : Component) (cs : List Component) :
    Component.edgesList (c :: cs) = c.edges ++ Component.edgesList cs := by
  simp [Component.edgesList]

theorem Component.idsOf_def (c : Component) :
    c.idsOf = c.id :: Component.idsL c.children := by
  rw [Component.idsOf, Component.nodes_def, List.map_cons, Component.idsL]

theorem Component.idsL_nil : Component.idsL [] = [] := by
  simp [Component.idsL, Component.nodesList]

theorem Component.idsL_cons (c : Component) (cs : List Component) :
    Component.idsL (c :: cs) = c.idsOf ++ Component.idsL cs := by
  simp [Component.idsL, Component.nodesList_cons, Component.idsOf]

theorem Component.idsL_append (a b : List Component) :
    Component.idsL (a ++ b) = Component.idsL a ++ Component.idsL b := by
  simp [Component.idsL, Component.nodesList_append]

theorem addChildAt_id (pid : Int) (child c : Component) :
    (addChildAt pid child c).id = c.id := by
  cases c with
  | mk r i ps ch =>
      rw [addChildAt]
      by_cases h : i = pid <;>
        simp [h, Component.add_child, Component.id]

theorem Component.edgesList_append (a b : List Component) :
    Component.edgesList (a ++ b) =
      Component.edgesList a ++ Component.edgesList b := by
  induction a with
  | nil => simp [Component.edgesList]
  | cons x xs ih => simp [Component.edgesList, ih]

theorem addChildAt_eq_of_not_mem (pid : Int) (child : Component) :
    ∀ c : Component, pid ∉ c.idsOf → addChildAt pid child c = c := by
  refine addChildAt.induct pid child
    (fun c => pid ∉ c.idsOf → addChildAt pid child c = c)
    (fun l => pid ∉ Component.idsL l → addChildAtL pid child l = l)
    ?_ ?_ ?_ ?_
  · intro r ps ch h
    exact absurd (by rw [Component.idsOf_def]; simp [Component.id]) h
  · intro r i ps ch hne ih h
    rw [Component.idsOf_def] at h
    simp only [Component.id, Component.children, List.mem_cons, not_or] at h
    simp [addChildAt, hne, ih h.2]
  · intro _
    simp [addChildAtL]
  · intro c cs ih1 ih2 h
    rw [Component.idsL_cons] at h
    simp only [List.mem_append, not_or] at h
    simp [addChildAtL, ih1 h.1, ih2 h.2]

theorem addChildAtL_eq_of_not_mem (pid : Int) (child : Component) :
    ∀ l : List Component, pid ∉ Component.idsL l → addChildAtL pid child l = l := by
  refine addChildAtL.induct pid child
    (fun c => pid ∉ c.idsOf → addChildAt pid child c = c)
    (fun l => pid ∉ Component.idsL l → addChildAtL pid child l = l)
    ?_ ?_ ?_ ?_
  · intro r ps ch h
    exact absurd (by rw [Component.idsOf_def]; simp [Component.id]) h
  · intro r i ps ch hne ih h
    rw [Component.idsOf_def] at h
    simp only [Component.id, Component.children, List.mem_cons, not_or] at h
    simp [addChildAt, hne, ih h.2]
  · intro _
    simp [addChildAtL]
  · intro c cs ih1 ih2 h
    rw [Component.idsL_cons] at h
    simp only [List.mem_append, not_or] at h
    simp [addChildAtL, ih1 h.1, ih2 h.2]

theorem addChildAt_idsOf_perm (pid : Int) (child : Component) :
    ∀ c : Component, c.idsOf.count pid = 1 →
      (addChildAt pid child c).idsOf.Perm (c.idsOf ++ child.idsOf) := by
  refine addChildAt.induct pid child
    (fun c => c.idsOf.count pid = 1 →
      (addChildAt pid child c).idsOf.Perm (c.idsOf ++ child.idsOf))
    (fun l => (Component.idsL l).count pid = 1 →
      (Component.idsL (addChildAtL pid child l)).Perm
        (Component.idsL l ++ child.idsOf))
    ?_ ?_ ?_ ?_
  · intro r ps ch _
    have hstep : addChildAt pid child (Component.mk r pid ps ch) =
        Component.mk r pid ps (ch ++ [child]) := by
      simp [addChildAt, Component.add_child]
    rw [hstep, Component.idsOf_def, Component.idsOf_def]
    simp only [Component.id, Component.children, Component.idsL_append,
      Component.idsL_cons, Component.idsL_nil, List.append_nil]
    rw [← Multiset.coe_eq_coe]
    simp only [← Multiset.coe_add, ← Multiset.cons_coe, ← Multiset.singleton_add]
    ac_rfl
  · intro r i ps ch hne ih h
    rw [Component.idsOf_def] at h
    simp only [Component.id, Component.children, List.count_cons] at h
    have hch : List.count pid (Component.idsL ch) = 1 := by
      simpa [hne] using h
    have ih' := ih hch
    simp only [addChildAt, if_neg hne]
    rw [Component.idsOf_def, Component.idsOf_def]
    simp only [Component.id, Component.children]
    rw [← Multiset.coe_eq_coe] at ih' ⊢
    simp only [← Multiset.coe_add, ← Multiset.cons_coe, ← Multiset.singleton_add] at ih' ⊢
    rw [ih']
    ac_rfl
  · intro h
    rw [Component.idsL_nil, List.count_nil] at h
    exact absurd h (by decide)
  · intro c cs ih1 ih2 h
    rw [Component.idsL_cons, List.count_append] at h
    have hsplit : (List.count pid c.idsOf = 1 ∧
        List.count pid (Component.idsL cs) = 0) ∨
        (List.count pid c.idsOf = 0 ∧
        List.count pid (Component.idsL cs) = 1) := by omega
    rcases hsplit with ⟨h1, h2⟩ | ⟨h1, h2⟩
    · have hcs : addChildAtL pid child cs = cs :=
        addChildAtL_eq_of_not_mem pid child cs (List.count_eq_zero.mp h2)
      have ihc := ih1 h1
      simp only [addChildAtL, hcs, Component.idsL_cons]
      rw [← Multiset.coe_eq_coe] at ihc ⊢
      simp only [← Multiset.coe_add, ← Multiset.cons_coe,
        ← Multiset.singleton_add] at ihc ⊢
      rw [ihc]
      ac_rfl
    · have hc : addChildAt pid child c = c :=
        addChildAt_eq_of_not_mem pid child c (List.count_eq_zero.mp h1)
      have ihcs := ih2 h2
      simp only [addChildAtL, hc, Component.idsL_cons]
      rw [← Multiset.coe_eq_coe] at ihcs ⊢
      simp only [← Multiset.coe_add, ← Multiset.cons_coe,
        ← Multiset.singleton_add] at ihcs ⊢
      rw [ihcs]
      ac_rfl

theorem addChildAtL_map_pair (pid : Int) (child : Component) (i : Int) :
    ∀ l : List Component,
      (addChildAtL pid child l).map (fun x => (i, Component.id x)) =
        l.map (fun x => (i, Component.id x)) := by
  intro l
  induction l with
  | nil => simp [addChildAtL]
  | cons c cs ih => simp [addChildAtL, addChildAt_id, ih]

theorem addChildAt_edges_perm (pid : Int) (child : Component) :
    ∀ c : Component, c.idsOf.count pid = 1 →
      (addChildAt pid child c).edges.Perm
        ((pid, child.id) :: (c.edges ++ child.edges)) := by
  refine addChildAt.induct pid child
    (fun c => c.idsOf.count pid = 1 →
      (addChildAt pid child c).edges.Perm
        ((pid, child.id) :: (c.edges ++ child.edges)))
    (fun l => (Component.idsL l).count pid = 1 →
      (Component.edgesList (addChildAtL pid child l)).Perm
        ((pid, child.id) :: (Component.edgesList l ++ child.edges)))
    ?_ ?_ ?_ ?_
  · intro r ps ch _
    have hstep : addChildAt pid child (Component.mk r pid ps ch) =
        Component.mk r pid ps (ch ++ [child]) := by
      simp [addChildAt, Component.add_child]
    rw [hstep, Component.edges_def, Component.edges_def]
    simp only [Component.id, Component.children, List.map_append, List.map_cons,
      List.map_nil, Component.edgesList_append, Component.edgesList_cons,
      Component.edgesList_nil, List.append_nil]
    rw [← Multiset.coe_eq_coe]
    simp only [← Multiset.coe_add, ← Multiset.cons_coe, ← Multiset.singleton_add]
    ac_rfl
  · intro r i ps ch hne ih h
    rw [Component.idsOf_def] at h
    simp only [Component.id, Component.children, List.count_cons] at h
    have hch : List.count pid (Component.idsL ch) = 1 := by
      simpa [hne] using h
    have ih' := ih hch
    simp only [addChildAt, if_neg hne]
    rw [Component.edges_def, Component.edges_def]
    simp only [Component.id_mk, Component.children_mk]
    rw [addChildAtL_map_pair]
    rw [← Multiset.coe_eq_coe] at ih' ⊢
    simp only [← Multiset.coe_add, ← Multiset.cons_coe,
      ← Multiset.singleton_add] at ih' ⊢
    rw [ih']
    ac_rfl
  · intro h
    rw [Component.idsL_nil, List.count_nil] at h
    exact absurd h (by decide)
  · intro c cs ih1 ih2 h
    rw [Component.idsL_cons, List.count_append] at h
    have hsplit : (List.count pid c.idsOf = 1 ∧
        List.count pid (Component.idsL cs) = 0) ∨
        (List.count pid c.idsOf = 0 ∧
        List.count pid (Component.idsL cs) = 1) := by omega
    rcases hsplit with ⟨h1, h2⟩ | ⟨h1, h2⟩
    · have hcs : addChildAtL pid child cs = cs :=
        addChildAtL_eq_of_not_mem pid child cs (List.count_eq_zero.mp h2)
      have ihc := ih1 h1
      simp only [addChildAtL, hcs, Component.edgesList_cons]
      rw [← Multiset.coe_eq_coe] at ihc ⊢
      simp only [← Multiset.coe_add, ← Multiset.cons_coe,
        ← Multiset.singleton_add] at ihc ⊢
      rw [ihc]
      ac_rfl
    · have hc : addChildAt pid child c = c :=
        addChildAt_eq_of_not_mem pid child c (List.count_eq_zero.mp h1)
      have ihcs := ih2 h2
      simp only [addChildAtL, hc, Component.edgesList_cons]
      rw [← Multiset.coe_eq_coe] at ihcs ⊢
      simp only [← Multiset.coe_add, ← Multiset.cons_coe,
        ← Multiset.singleton_add] at ihcs ⊢
      rw [ihcs]
      ac_rfl

/-! ### The build invariant for add-step call sequences -/

theorem runCalls_append (cs : List AddCall) (c : AddCall) :
    runCalls (cs ++ [c]) = stepCall (runCalls cs) c := by
  simp [runCalls, List.foldl_append]

theorem wfCallsFrom_append (c : AddCall) :
    ∀ (cs : List AddCall) (i : Nat),
      wfCallsFrom i (cs ++ [c]) =
        (wfCallsFrom i cs && parentOk (i + cs.length) c.parent) := by
  intro cs
  induction cs with
  | nil => intro i; simp [wfCallsFrom]
  | cons d ds ih =>
      intro i
      have harith : i + 1 + ds.length = i + (ds.length + 1) := by omega
      simp only [List.cons_append, wfCallsFrom, List.append_eq, ih (i + 1),
        harith, List.length_cons, Bool.and_assoc]

theorem createdEdgesFrom_append (c : AddCall) :
    ∀ (cs : List AddCall) (i : Nat),
      createdEdgesFrom i (cs ++ [c]) =
        createdEdgesFrom i cs ++
          [(resolveParent c.parent, Int.ofNat (i + cs.length))] := by
  intro cs
  induction cs with
  | nil => intro i; simp [createdEdgesFrom]
  | cons d ds ih =>
      intro i
      have harith : i + 1 + ds.length = i + (ds.length + 1) := by omega
      simp only [List.cons_append, createdEdgesFrom, List.append_eq, ih (i + 1),
        harith, List.length_cons, List.cons_append]

theorem parentOk_resolve {i : Nat} {po : Option Int} (h : parentOk i po = true) :
    resolveParent po = -1 ∨
      (0 ≤ resolveParent po ∧ resolveParent po < (i : Int)) := by
  cases po with
  | none => exact Or.inl rfl
  | some pid =>
      simp only [parentOk, Bool.or_eq_true, Bool.and_eq_true, beq_iff_eq,
        decide_eq_true_eq] at h
      simpa [resolveParent] using h

theorem count_parent (n : Nat) (pid : Int)
    (h : pid = -1 ∨ (0 ≤ pid ∧ pid < (n : Int))) :
    List.count pid ((-1) :: (List.range n).map Int.ofNat) = 1 := by
  have hneg : List.count (-1 : Int) ((List.range n).map Int.ofNat) = 0 := by
    rw [List.count_eq_zero]
    simp only [List.mem_map, not_exists]
    rintro x ⟨hx, hc⟩
    simp only [Int.ofNat_eq_coe] at hc
    omega
  rcases h with h | ⟨h0, hn⟩
  · subst h
    rw [List.count_cons, hneg]
    simp
  · have hk : Int.ofNat pid.toNat = pid := by
      simp only [Int.ofNat_eq_coe]
      exact Int.toNat_of_nonneg h0
    have hne : pid ≠ -1 := by omega
    rw [List.count_cons]
    have hcnt : List.count pid ((List.range n).map Int.ofNat) = 1 := by
      rw [← hk,
        List.count_map_of_injective _ _ (fun a b hab => by simpa using hab)]
      refine List.count_eq_one_of_mem (List.nodup_range n) (List.mem_range.mpr ?_)
      omega
    simp [hcnt, hne.symm]

theorem leaf_edges (r : String) (i : Int) (ps : Params) :
    (Component.mk r i ps []).edges = [] := by
  rw [Component.edges_def]
  simp [Component.children_mk, Component.edgesList_nil]

theorem leaf_idsOf (r : String) (i : Int) (ps : Params) :
    (Component.mk r i ps []).idsOf = [i] := by
  rw [Component.idsOf_def]
  simp [Component.children_mk, Component.id_mk, Component.idsL_nil]

theorem step_attach (st : Component) (n : Nat) (pid : Int) (role : String)
    (ps : Params) (E : List (Int × Int))
    (hrootid : st.id = -1)
    (hids : st.idsOf.Perm ((-1) :: (List.range n).map Int.ofNat))
    (hedges : st.edges.Perm E)
    (hpid : pid = -1 ∨ (0 ≤ pid ∧ pid < (n : Int))) :
    (addChildAt pid (Component.mk role (Int.ofNat n) ps []) st).id = -1 ∧
    ((addChildAt pid (Component.mk role (Int.ofNat n) ps []) st).idsOf).Perm
      ((-1) :: (List.range (n + 1)).map Int.ofNat) ∧
    ((addChildAt pid (Component.mk role (Int.ofNat n) ps []) st).edges).Perm
      (E ++ [(pid, Int.ofNat n)]) := by
  have hcount : st.idsOf.count pid = 1 := by
    rw [hids.count_eq]
    exact count_parent n pid hpid
  refine ⟨by rw [addChildAt_id, hrootid], ?_, ?_⟩
  · have h1 := addChildAt_idsOf_perm pid
      (Component.mk role (Int.ofNat n) ps []) st hcount
    rw [leaf_idsOf] at h1
    refine h1.trans ?_
    have h2 : (st.idsOf ++ [Int.ofNat n]).Perm
        (((-1) :: (List.range n).map Int.ofNat) ++ [Int.ofNat n]) :=
      hids.append_right _
    refine h2.trans ?_
    rw [List.range_succ, List.map_append]
    rw [← Multiset.coe_eq_coe]
    simp only [← Multiset.coe_add, ← Multiset.cons_coe, ← Multiset.singleton_add]
    ac_rfl
  · have h1 := addChildAt_edges_perm pid
      (Component.mk role (Int.ofNat n) ps []) st hcount
    rw [leaf_edges, List.append_nil, Component.id_mk] at h1
    refine h1.trans ?_
    have h2 : ((pid, Int.ofNat n) :: st.edges).Perm ((pid, Int.ofNat n) :: E) :=
      hedges.cons _
    refine h2.trans ?_
    exact (List.perm_append_singleton _ _).symm

theorem runCalls_invariant :
    ∀ calls : List AddCall, wfCalls calls = true →
      (runCalls calls).1.size = calls.length ∧
      (runCalls calls).2.map Component.id =
        (List.range calls.length).map Int.ofNat ∧
      (runCalls calls).1.structure_.id = -1 ∧
      ((runCalls calls).1.structure_.idsOf).Perm
        ((-1) :: (List.range calls.length).map Int.ofNat) ∧
      ((runCalls calls).1.structure_.edges).Perm (createdEdges calls) := by
  intro calls
  induction calls using List.reverseRecOn with
  | nil =>
      intro _
      refine ⟨rfl, rfl, rfl, ?_, ?_⟩
      · have h1 : (runCalls []).1.structure_.idsOf = [(-1 : Int)] := by
          simp [runCalls, BasePipeline.init, leaf_idsOf]
        rw [h1]
        simp
      · have h1 : (runCalls []).1.structure_.edges = [] := by
          simp [runCalls, BasePipeline.init, leaf_edges]
        rw [h1]
        simp [createdEdges, createdEdgesFrom]
  | append_singleton cs c ih =>
      intro hwf
      rw [wfCalls, wfCallsFrom_append] at hwf
      rw [Bool.and_eq_true] at hwf
      obtain ⟨hwf1, hwf2⟩ := hwf
      obtain ⟨hsize, hret, hrootid, hids, hedges⟩ := ih hwf1
      rw [runCalls_append]
      have hlen0 : (0 : Nat) + cs.length = cs.length := by omega
      rw [hlen0] at hwf2
      have hpid := parentOk_resolve hwf2
      have hcre : createdEdges (cs ++ [c]) =
          createdEdges cs ++
            [(resolveParent c.parent, Int.ofNat cs.length)] := by
        rw [createdEdges, createdEdgesFrom_append, hlen0, createdEdges]
      cases c with
      | train parent wi =>
          have hp : AddCall.parent (AddCall.train parent wi) = parent := rfl
          rw [hp] at hpid hcre
          obtain ⟨hid', hids', hedges'⟩ := step_attach
            (runCalls cs).1.structure_ cs.length (resolveParent parent)
            "train" (filterNotNone [("wait_interval", wi)])
            (createdEdges cs) hrootid hids hedges hpid
          refine ⟨?_, ?_, ?_, ?_, ?_⟩
          · simp only [stepCall, BasePipeline.add_train_component, hsize]
            simp [List.length_append]
          · simp only [stepCall, BasePipeline.add_train_component, hsize]
            simp only [List.map_append, hret, List.map_cons, List.map_nil,
              Component.id_mk, List.length_append, List.length_cons,
              List.length_nil]
            rw [List.range_succ, List.map_append]
            simp
          · simpa [stepCall, BasePipeline.add_train_component, hsize] using hid'
          · simpa [stepCall, BasePipeline.add_train_component, hsize,
              List.length_append] using hids'
          · rw [hcre]
            simpa [stepCall, BasePipeline.add_train_component, hsize] using hedges'
      | deploy parent mu wi =>
          have hp : AddCall.parent (AddCall.deploy parent mu wi) = parent := rfl
          rw [hp] at hpid hcre
          obtain ⟨hid', hids', hedges'⟩ := step_attach
            (runCalls cs).1.structure_ cs.length (resolveParent parent)
            "deploy" (filterNotNone [("model_uri", mu), ("wait_interval", wi)])
            (createdEdges cs) hrootid hids hedges hpid
          refine ⟨?_, ?_, ?_, ?_, ?_⟩
          · simp only [stepCall, BasePipeline.add_deploy_component, hsize]
            simp [List.length_append]
          · simp only [stepCall, BasePipeline.add_deploy_component, hsize]
            simp only [List.map_append, hret, List.map_cons, List.map_nil,
              Component.id_mk, List.length_append, List.length_cons,
              List.length_nil]
            rw [List.range_succ, List.map_append]
            simp
          · simpa [stepCall, BasePipeline.add_deploy_component, hsize] using hid'
          · simpa [stepCall, BasePipeline.add_deploy_component, hsize,
              List.length_append] using hids'
          · rw [hcre]
            simpa [stepCall, BasePipeline.add_deploy_component, hsize] using hedges'
      | predict parent m v =>
          have hp : AddCall.parent (AddCall.predict parent m v) = parent := rfl
          rw [hp] at hpid hcre
          obtain ⟨hid', hids', hedges'⟩ := step_attach
            (runCalls cs).1.structure_ cs.length (resolveParent parent)
            "predict" (filterNotNone [("model_id", m), ("version_id", v)])
            (createdEdges cs) hrootid hids hedges hpid
          refine ⟨?_, ?_, ?_, ?_, ?_⟩
          · simp only [stepCall, BasePipeline.add_predict_component, hsize]
            simp [List.length_append]
          · simp only [stepCall, BasePipeline.add_predict_component, hsize]
            simp only [List.map_append, hret, List.map_cons, List.map_nil,
              Component.id_mk, List.length_append, List.length_cons,
              List.length_nil]
            rw [List.range_succ, List.map_append]
            simp
          · simpa [stepCall, BasePipeline.add_predict_component, hsize] using hid'
          · simpa [stepCall, BasePipeline.add_predict_component, hsize,
              List.length_append] using hids'
          · rw [hcre]
            simpa [stepCall, BasePipeline.add_predict_component, hsize] using hedges'

/-! ### Characterizing the stack-based traversal -/

theorem visit_append : ∀ a b : List Component,
    visit (a ++ b) = visit a ++ visit b := by
  intro a
  induction a using visit.induct with
  | case1 => intro b; simp [visit]
  | case2 c cs ih =>
      intro b
      have h1 : (c :: cs) ++ b = c :: (cs ++ b) := rfl
      rw [h1, visit, visit, ← List.append_assoc, ih b]
      simp

theorem visit_perm (s : List Component) :
    (visit s).Perm (Component.nodesList s) := by
  induction s using visit.induct with
  | case1 => simp [visit, Component.nodesList]
  | case2 c cs ih =>
      rw [visit, Component.nodesList_cons, Component.nodes_def c]
      refine (ih.cons c).trans ?_
      rw [Component.nodesList_append]
      have hr := Component.nodesList_reverse_perm c.children
      rw [← Multiset.coe_eq_coe] at hr ⊢
      simp only [← Multiset.coe_add, ← Multiset.cons_coe,
        ← Multiset.singleton_add] at hr ⊢
      rw [hr]
      ac_rfl

theorem toGraphAux_eq :
    ∀ (s : List Component) (comps : List (Option Component))
      (rels : List (Int × Int)),
      toGraphAux s comps rels =
        ((visit s).foldl
          (fun acc c =>
            if c.id ≠ -1 then acc.set c.id.toNat (some c) else acc) comps,
         rels ++ (visit s).flatMap fun c =>
           c.children.map fun ch => (c.id, ch.id)) := by
  intro s comps rels
  induction s, comps, rels using toGraphAux.induct with
  | case1 comps rels => simp [toGraphAux, visit]
  | case2 comp rest comps rels ih =>
      simp only [dite_eq_ite] at ih
      rw [toGraphAux, ih, visit]
      simp [List.append_assoc]

theorem edgesList_eq_flatMap :
    ∀ l : List Component,
      Component.edgesList l =
        (Component.nodesList l).flatMap fun c =>
          c.children.map fun ch => (c.id, ch.id) := by
  refine Component.nodesList.induct
    (fun c => c.edges =
      c.nodes.flatMap fun x => x.children.map fun ch => (x.id, ch.id))
    (fun l => Component.edgesList l =
      (Component.nodesList l).flatMap fun c =>
        c.children.map fun ch => (c.id, ch.id))
    ?_ ?_ ?_
  · intro r i ps ch ih
    rw [Component.edges_def, Component.nodes_def]
    simp only [List.flatMap_cons, Component.id_mk, Component.children_mk, ih]
  · simp [Component.edgesList, Component.nodesList]
  · intro c cs ih1 ih2
    rw [Component.edgesList_cons, Component.nodesList_cons, List.flatMap_append,
      ih1, ih2]

theorem printStructAux_eq :
    ∀ s : List Component,
      printStructAux s =
        ((visit s).filter fun c => decide (c.id ≠ -1)).map fun c =>
          (c.id, c.children.map Component.id) := by
  intro s
  induction s using printStructAux.induct with
  | case1 => simp [printStructAux, visit]
  | case2 c cs ih =>
      rw [printStructAux, visit, ih]
      by_cases h : c.id = -1
      · simp [h, List.filter_cons]
      · simp [h, List.filter_cons]

theorem foldl_set_length (L : List Component) :
    ∀ comps : List (Option Component),
      (L.foldl (fun acc c =>
        if c.id ≠ -1 then acc.set c.id.toNat (some c) else acc) comps).length =
        comps.length := by
  induction L with
  | nil => intro comps; rfl
  | cons x xs ih =>
      intro comps
      rw [List.foldl_cons, ih]
      by_cases h : x.id = -1 <;> simp [h, List.length_set]

theorem foldl_set_get_of_count_zero (i : Nat) :
    ∀ (L : List Component) (comps : List (Option Component)),
      (∀ x ∈ L, -1 ≤ x.id) →
      List.count (Int.ofNat i) (L.map Component.id) = 0 →
      (L.foldl (fun acc c =>
        if c.id ≠ -1 then acc.set c.id.toNat (some c) else acc) comps)[i]? =
        comps[i]? := by
  intro L
  induction L with
  | nil => intro comps _ _; rfl
  | cons x xs ih =>
      intro comps hb hc
      rw [List.map_cons, List.count_cons] at hc
      have hxne : x.id ≠ Int.ofNat i := by
        intro hx
        simp [hx] at hc
      have hc' : List.count (Int.ofNat i) (xs.map Component.id) = 0 := by
        omega
      rw [List.foldl_cons, ih _ (fun y hy => hb y (List.mem_cons_of_mem x hy)) hc']
      by_cases h : x.id = -1
      · simp [h]
      · have hge : 0 ≤ x.id := by
          have := hb x (List.mem_cons_self x xs)
          omega
        have hne : x.id.toNat ≠ i := by
          intro hti
          apply hxne
          simp only [Int.ofNat_eq_coe]
          omega
        simp only [h, ne_eq, not_false_iff, if_true]
        exact List.getElem?_set_ne hne

theorem foldl_set_get_of_count_one (i : Nat) :
    ∀ (L : List Component) (comps : List (Option Component)),
      (∀ x ∈ L, -1 ≤ x.id) →
      i < comps.length →
      List.count (Int.ofNat i) (L.map Component.id) = 1 →
      ∃ c : Component,
        (L.foldl (fun acc c =>
          if c.id ≠ -1 then acc.set c.id.toNat (some c) else acc) comps)[i]? =
          some (some c) ∧ c.id = Int.ofNat i := by
  intro L
  induction L with
  | nil =>
      intro comps _ _ hc
      rw [List.map_nil, List.count_nil] at hc
      exact absurd hc (by decide)
  | cons x xs ih =>
      intro comps hb hlen hc
      rw [List.map_cons, List.count_cons] at hc
      by_cases hx : x.id = Int.ofNat i
      · have hc' : List.count (Int.ofNat i) (xs.map Component.id) = 0 := by
          rw [hx] at hc
          simp only [beq_self_eq_true, if_true] at hc
          omega
        refine ⟨x, ?_, hx⟩
        rw [List.foldl_cons]
        have hxid : x.id ≠ -1 := by
          rw [hx]
          simp only [Int.ofNat_eq_coe]
          omega
        have hset : (if x.id ≠ -1 then comps.set x.id.toNat (some x) else comps) =
            comps.set i (some x) := by
          simp only [hxid, ne_eq, not_false_iff, if_true]
          congr 1
          rw [hx]
          simp only [Int.ofNat_eq_coe]
          omega
        rw [hset,
          foldl_set_get_of_count_zero i xs _
            (fun y hy => hb y (List.mem_cons_of_mem x hy)) hc']
        rw [List.getElem?_set]
        simp [hlen]
      · have hc' : List.count (Int.ofNat i) (xs.map Component.id) = 1 := by
          simp only [beq_iff_eq] at hc
          rw [if_neg (by exact fun h => hx h)] at hc
          omega
        rw [List.foldl_cons]
        have hlen' : i < (if x.id ≠ -1 then comps.set x.id.toNat (some x)
            else comps).length := by
          by_cases h : x.id = -1 <;> simp [h, List.length_set, hlen]
        exact ih _ (fun y hy => hb y (List.mem_cons_of_mem x hy)) hlen' hc'

/-! ### Fuel and the reference-level loop -/

theorem toGraphFuel_eq :
    ∀ (fuel : Nat) (s : List Component) (comps : List (Option Component))
      (rels : List (Int × Int)),
      (Component.nodesList s).length ≤ fuel →
      toGraphFuel fuel s comps rels = some (toGraphAux s comps rels) := by
  intro fuel
  induction fuel with
  | zero =>
      intro s comps rels h
      cases s with
      | nil => simp [toGraphFuel, toGraphAux]
      | cons c rest =>
          rw [Component.nodesList_cons, Component.nodes_def] at h
          simp at h
  | succ n ih =>
      intro s comps rels h
      cases s with
      | nil => simp [toGraphFuel, toGraphAux]
      | cons c rest =>
          rw [toGraphFuel, toGraphAux]
          refine ih _ _ _ ?_
          rw [Component.nodesList_cons, Component.nodes_def] at h
          rw [Component.nodesList_append]
          have hr := (Component.nodesList_reverse_perm c.children).length_eq
          simp only [List.length_append, List.length_cons] at h ⊢
          omega

theorem hiter_cyclic_self (n : Nat) : hiter cyclicHeap n [0] = [0] := by
  induction n with
  | zero => rfl
  | succ k ih =>
      have hstep0 : hstep cyclicHeap [0] = [0] := by decide
      rw [hiter, hstep0, ih]

theorem hiter_cyclic_never_empty (n : Nat) : hiter cyclicHeap n [-1] ≠ [] := by
  cases n with
  | zero => simp [hiter]
  | succ k =>
      have hstep1 : hstep cyclicHeap [-1] = [0] := by decide
      rw [hiter, hstep1, hiter_cyclic_self]
      simp

theorem createdEdgesFrom_length : ∀ (cs : List AddCall) (i : Nat),
    (createdEdgesFrom i cs).length = cs.length := by
  intro cs
  induction cs with
  | nil => intro i; rfl
  | cons d ds ih => intro i; simp [createdEdgesFrom, ih]

theorem createdEdgesFrom_snd_ge : ∀ (cs : List AddCall) (i : Nat)
    (e : Int × Int), e ∈ createdEdgesFrom i cs → (i : Int) ≤ e.2 := by
  intro cs
  induction cs with
  | nil => intro i e he; simp [createdEdgesFrom] at he
  | cons d ds ih =>
      intro i e he
      rw [createdEdgesFrom, List.mem_cons] at he
      rcases he with he | he
      · subst he
        simp
      · have := ih (i + 1) e he
        omega

theorem createdEdges_nodup : ∀ (cs : List AddCall) (i : Nat),
    (createdEdgesFrom i cs).Nodup := by
  intro cs
  induction cs with
  | nil => intro i; simp [createdEdgesFrom]
  | cons d ds ih =>
      intro i
      rw [createdEdgesFrom, List.nodup_cons]
      refine ⟨?_, ih (i + 1)⟩
      intro hmem
      have hge := createdEdgesFrom_snd_ge ds (i + 1) _ hmem
      simp only [Int.ofNat_eq_coe] at hge
      omega

theorem visit_flatMap : ∀ s : List Component,
    visit s = s.flatMap fun c => visit [c] := by
  intro s
  induction s with
  | nil => simp [visit]
  | cons c cs ih =>
      have h1 : c :: cs = [c] ++ cs := rfl
      rw [h1, visit_append, ih, List.flatMap_append]
      simp

/-- The ids of all nodes of a well-formed pipeline lie in the id range,
hence are at least -1. -/
theorem visit_ids_bound (st : Component) (n : Nat)
    (hids : st.idsOf.Perm ((-1) :: (List.range n).map Int.ofNat)) :
    ∀ x ∈ visit [st], -1 ≤ x.id := by
  intro x hx
  have h1 : x ∈ Component.nodesList [st] := (visit_perm [st]).mem_iff.mp hx
  have h2 : x.id ∈ Component.idsL [st] := List.mem_map_of_mem Component.id h1
  rw [Component.idsL_cons, Component.idsL_nil, List.append_nil] at h2
  have h3 := hids.mem_iff.mp h2
  rw [List.mem_cons] at h3
  rcases h3 with h3 | h3
  · omega
  · rw [List.mem_map] at h3
    obtain ⟨k, _, hk⟩ := h3
    simp only [Int.ofNat_eq_coe] at hk
    omega

theorem visit_ids_count (st : Component) (n : Nat)
    (hids : st.idsOf.Perm ((-1) :: (List.range n).map Int.ofNat)) :
    ∀ i : Nat, i < n →
      List.count (Int.ofNat i) ((visit [st]).map Component.id) = 1 := by
  intro i hi
  have h1 : ((visit [st]).map Component.id).Perm (Component.idsL [st]) :=
    (visit_perm [st]).map Component.id
  rw [h1.count_eq]
  rw [Component.idsL_cons, Component.idsL_nil, List.append_nil]
  rw [hids.count_eq]
  refine count_parent n (Int.ofNat i) (Or.inr ⟨?_, ?_⟩) <;>
    simp only [Int.ofNat_eq_coe] <;> omega

/-! ### The claims -/

/-- C1: for every well-formed sequence of N add-step calls (train, deploy,
predict, in any combination and with any parents), the pipeline's size
after the N calls equals N, every created node's id equals its 0-based
creation order, ids are unique, and the synthetic root keeps id -1 and is
never counted in size (the tree holds exactly the N created ids besides
the root's -1). -/
theorem claim_c1_size_and_ids (calls : List AddCall)
    (h : wfCalls calls = true) :
    (runCalls calls).1.size = calls.length ∧
    (runCalls calls).2.map Component.id =
      (List.range calls.length).map Int.ofNat ∧
    (runCalls calls).1.structure_.id = -1 ∧
    ((runCalls calls).1.structure_.idsOf).Perm
      ((-1) :: (List.range calls.length).map Int.ofNat) ∧
    ((runCalls calls).1.structure_.idsOf).Nodup := by
  obtain ⟨hsize, hret, hroot, hids, _⟩ := runCalls_invariant calls h
  refine ⟨hsize, hret, hroot, hids, hids.nodup_iff.mpr ?_⟩
  rw [List.nodup_cons]
  constructor
  · rw [List.mem_map]
    rintro ⟨k, _, hk⟩
    simp only [Int.ofNat_eq_coe] at hk
    omega
  · exact (List.nodup_range _).map fun a b hab => by simpa using hab

/-- Witness for C1 at the spec's three-call scenario. -/
theorem claim_c1_size_and_ids_witness :
    wfCalls scenarioCalls = true ∧
    ((runCalls scenarioCalls).1.size = scenarioCalls.length ∧
    (runCalls scenarioCalls).2.map Component.id =
      (List.range scenarioCalls.length).map Int.ofNat ∧
    (runCalls scenarioCalls).1.structure_.id = -1 ∧
    ((runCalls scenarioCalls).1.structure_.idsOf).Perm
      ((-1) :: (List.range scenarioCalls.length).map Int.ofNat) ∧
    ((runCalls scenarioCalls).1.structure_.idsOf).Nodup) :=
  ⟨by decide, claim_c1_size_and_ids scenarioCalls (by decide)⟩

/-- C2: for every pipeline built only by well-formed add-step calls,
to_graph returns a components sequence with as many entries as size, and
the entry at every index i of 0..size-1 is a component whose id is i (so
the root, id -1, is excluded from components). -/
theorem claim_c2_to_graph_components (calls : List AddCall)
    (h : wfCalls calls = true) :
    (runCalls calls).1.to_graph.1.length = (runCalls calls).1.size ∧
    ∀ i : Nat, i < (runCalls calls).1.size →
      ∃ c : Component,
        (runCalls calls).1.to_graph.1[i]? = some (some c) ∧
        c.id = Int.ofNat i := by
  obtain ⟨hsize, _, _, hids, _⟩ := runCalls_invariant calls h
  rw [BasePipeline.to_graph, toGraphAux_eq]
  constructor
  · rw [foldl_set_length, List.length_replicate]
  · intro i hi
    refine foldl_set_get_of_count_one i (visit [(runCalls calls).1.structure_])
      (List.replicate (runCalls calls).1.size none)
      (visit_ids_bound _ calls.length hids) ?_ ?_
    · rw [List.length_replicate]
      exact hi
    · exact visit_ids_count _ calls.length hids i (by omega)

/-- Witness for C2 at the spec's three-call scenario. -/
theorem claim_c2_to_graph_components_witness :
    wfCalls scenarioCalls = true ∧
    ((runCalls scenarioCalls).1.to_graph.1.length =
      (runCalls scenarioCalls).1.size ∧
    ∀ i : Nat, i < (runCalls scenarioCalls).1.size →
      ∃ c : Component,
        (runCalls scenarioCalls).1.to_graph.1[i]? = some (some c) ∧
        c.id = Int.ofNat i) :=
  ⟨by decide, claim_c2_to_graph_components scenarioCalls (by decide)⟩

/-- C3: for every add-step call, the resulting node's parameter map
contains no key whose corresponding optional argument was omitted
(Python's None default, PVal.vnone), and always contains a key whose
argument was explicitly supplied, regardless of value — including falsy
values such as 0 or the empty string; in particular add_train_component
with wait_interval omitted yields the empty parameter map. -/
theorem claim_c3_param_maps (p : BasePipeline) (parent : Option Int)
    (wi mu m v : PVal) :
    ((p.add_train_component parent wi).2.params =
      if wi = PVal.vnone then [] else [("wait_interval", wi)]) ∧
    ((p.add_deploy_component parent mu wi).2.params =
      (if mu = PVal.vnone then [] else [("model_uri", mu)]) ++
      (if wi = PVal.vnone then [] else [("wait_interval", wi)])) ∧
    ((p.add_predict_component parent m v).2.params =
      (if m = PVal.vnone then [] else [("model_id", m)]) ++
      (if v = PVal.vnone then [] else [("version_id", v)])) ∧
    (p.add_train_component parent PVal.vnone).2.params = [] ∧
    (p.add_train_component parent (PVal.vint 0)).2.params =
      [("wait_interval", PVal.vint 0)] ∧
    (p.add_train_component parent (PVal.vstr "")).2.params =
      [("wait_interval", PVal.vstr "")] := by
  refine ⟨?_, ?_, ?_, ?_, rfl, rfl⟩
  · by_cases h : wi = PVal.vnone <;>
      simp [BasePipeline.add_train_component, Component.params_mk,
        filterNotNone, h]
  · by_cases h1 : mu = PVal.vnone <;> by_cases h2 : wi = PVal.vnone <;>
      simp [BasePipeline.add_deploy_component, Component.params_mk,
        filterNotNone, h1, h2]
  · by_cases h1 : m = PVal.vnone <;> by_cases h2 : v = PVal.vnone <;>
      simp [BasePipeline.add_predict_component, Component.params_mk,
        filterNotNone, h1, h2]
  · rfl

/-- C9: explicitly passing None (PVal.vnone) for an optional parameter is
exactly the omitted default, so the key is filtered out whenever the
value is None: no stored parameter value is ever None, and a None
argument leaves its key entirely absent from the map. -/
theorem claim_c9_none_indistinguishable (p : BasePipeline)
    (parent : Option Int) (wi mu m v : PVal) :
    ((p.add_train_component parent wi).2.params.all fun kv =>
      decide (kv.2 ≠ PVal.vnone)) = true ∧
    ((p.add_deploy_component parent mu wi).2.params.all fun kv =>
      decide (kv.2 ≠ PVal.vnone)) = true ∧
    ((p.add_predict_component parent m v).2.params.all fun kv =>
      decide (kv.2 ≠ PVal.vnone)) = true ∧
    (p.add_train_component parent PVal.vnone).2.params = [] ∧
    (p.add_deploy_component parent PVal.vnone wi).2.params =
      filterNotNone [("wait_interval", wi)] ∧
    (p.add_deploy_component parent mu PVal.vnone).2.params =
      filterNotNone [("model_uri", mu)] ∧
    (p.add_predict_component parent PVal.vnone v).2.params =
      filterNotNone [("version_id", v)] ∧
    (p.add_predict_component parent m PVal.vnone).2.params =
      filterNotNone [("model_id", m)] := by
  refine ⟨?_, ?_, ?_, rfl, ?_, ?_, ?_, ?_⟩
  · simp [BasePipeline.add_train_component, Component.params_mk,
      filterNotNone, List.all_filter]
  · simp [BasePipeline.add_deploy_component, Component.params_mk,
      filterNotNone, List.all_filter]
  · simp [BasePipeline.add_predict_component, Component.params_mk,
      filterNotNone, List.all_filter]
  · simp [BasePipeline.add_deploy_component, Component.params_mk, filterNotNone,
      List.filter_cons]
  · simp [BasePipeline.add_deploy_component, Component.params_mk, filterNotNone,
      List.filter_cons]
  · simp [BasePipeline.add_predict_component, Component.params_mk, filterNotNone,
      List.filter_cons]
  · simp [BasePipeline.add_predict_component, Component.params_mk, filterNotNone,
      List.filter_cons]

/-- C10: the deploy-parameter blob of KfpPipeline._get_deploy_params
always carries project_id, model_id, runtime_version and python_version,
and carries the model_uri key (set to the model directory) exactly when
the descriptor's framework is not the string tensorflow. -/
theorem claim_c10_deploy_params (mo : KModel) :
    ("project_id", mo.project_id) ∈ get_deploy_params mo ∧
    ("model_id", mo.name ++ "_kfp") ∈ get_deploy_params mo ∧
    ("runtime_version", mo.runtime_version) ∈ get_deploy_params mo ∧
    ("python_version", mo.python_version) ∈ get_deploy_params mo ∧
    ((get_deploy_params mo).map Prod.fst).contains "model_uri" =
      (mo.framework != "tensorflow") := by
  by_cases h : mo.framework = "tensorflow" <;>
    simp [get_deploy_params, h, List.contains_eq_any_beq]

/-- C4: for every pipeline built by well-formed add-step calls, the
relations list of to_graph has exactly one entry per parent-to-child link
created (length = number of calls), is a permutation of the created
(parent_id, child_id) attachments and of the tree's edges, and lists
every edge exactly once (no duplicates). -/
theorem claim_c4_relations (calls : List AddCall)
    (h : wfCalls calls = true) :
    (runCalls calls).1.to_graph.2.length = calls.length ∧
    ((runCalls calls).1.to_graph.2).Perm (createdEdges calls) ∧
    ((runCalls calls).1.to_graph.2).Perm
      (Component.edges (runCalls calls).1.structure_) ∧
    ((runCalls calls).1.to_graph.2).Nodup := by
  obtain ⟨_, _, _, _, hedges⟩ := runCalls_invariant calls h
  have hrel : (runCalls calls).1.to_graph.2.Perm
      (Component.edges (runCalls calls).1.structure_) := by
    rw [BasePipeline.to_graph, toGraphAux_eq]
    have h1 : ((visit [(runCalls calls).1.structure_]).flatMap fun c =>
        c.children.map fun ch => (c.id, ch.id)).Perm
        ((Component.nodesList [(runCalls calls).1.structure_]).flatMap fun c =>
          c.children.map fun ch => (c.id, ch.id)) :=
      (visit_perm _).flatMap_right _
    rw [← edgesList_eq_flatMap, Component.edgesList_cons,
      Component.edgesList_nil, List.append_nil] at h1
    simpa using h1
  have hperm : (runCalls calls).1.to_graph.2.Perm (createdEdges calls) :=
    hrel.trans hedges
  refine ⟨?_, hperm, hrel, ?_⟩
  · rw [hperm.length_eq, createdEdges, createdEdgesFrom_length]
  · exact hperm.nodup_iff.mpr (createdEdges_nodup calls 0)

/-- Witness for C4 at the spec's three-call scenario. -/
theorem claim_c4_relations_witness :
    wfCalls scenarioCalls = true ∧
    ((runCalls scenarioCalls).1.to_graph.2.length = scenarioCalls.length ∧
    ((runCalls scenarioCalls).1.to_graph.2).Perm (createdEdges scenarioCalls) ∧
    ((runCalls scenarioCalls).1.to_graph.2).Perm
      (Component.edges (runCalls scenarioCalls).1.structure_) ∧
    ((runCalls scenarioCalls).1.to_graph.2).Nodup) :=
  ⟨by decide, claim_c4_relations scenarioCalls (by decide)⟩

/-- C5: the scenario add_train_component(), then
add_deploy_component(parent=<that node>, model_uri="gs://x"), then
add_predict_component(parent=<root>) produces size=3, components ordered
[train id 0, deploy id 1, predict id 2], and relations containing (0,1)
and (-1,2) (root edges use parent id -1). -/
theorem claim_c5_scenario :
    (runCalls scenarioCalls).1.size = 3 ∧
    (runCalls scenarioCalls).1.to_graph.1.map
      (Option.map fun c => (c.role, c.id)) =
      [some ("train", 0), some ("deploy", 1), some ("predict", 2)] ∧
    (0, 1) ∈ (runCalls scenarioCalls).1.to_graph.2 ∧
    (-1, 2) ∈ (runCalls scenarioCalls).1.to_graph.2 := by
  have hrel : (runCalls scenarioCalls).1.to_graph.2 =
      [(-1, 0), (-1, 2), (0, 1)] := by
    simp [scenarioCalls, runCalls, stepCall, BasePipeline.add_train_component,
      BasePipeline.add_deploy_component, BasePipeline.add_predict_component,
      BasePipeline.init, resolveParent, addChildAt, addChildAtL,
      Component.add_child, BasePipeline.to_graph, toGraphAux, filterNotNone,
      Component.children, Component.id, List.replicate]
  have hcomp : (runCalls scenarioCalls).1.to_graph.1.map
      (Option.map fun c => (c.role, c.id)) =
      [some ("train", 0), some ("deploy", 1), some ("predict", 2)] := by
    simp [scenarioCalls, runCalls, stepCall, BasePipeline.add_train_component,
      BasePipeline.add_deploy_component, BasePipeline.add_predict_component,
      BasePipeline.init, resolveParent, addChildAt, addChildAtL,
      Component.add_child, BasePipeline.to_graph, toGraphAux, filterNotNone,
      Component.children, Component.id, Component.role, List.replicate]
  refine ⟨rfl, hcomp, ?_, ?_⟩ <;> rw [hrel] <;> decide

/-- C6: for every pipeline built by add-step calls (a finite tree, the
only shape those operations can reach), the to_graph loop terminates —
some finite fuel makes the fuel-indexed loop return exactly to_graph's
result; and there is no cycle detection: on the cyclic structure obtained
by the caller error comp.add_child(comp) after one add_train_component,
the traversal stack is nonempty after every number of iterations, so the
while loop never exits. -/
theorem claim_c6_termination :
    (∀ calls : List AddCall, ∃ fuel : Nat,
      toGraphFuel fuel [(runCalls calls).1.structure_]
          (List.replicate (runCalls calls).1.size none) [] =
        some ((runCalls calls).1.to_graph)) ∧
    (∀ n : Nat, hiter cyclicHeap n [-1] ≠ []) := by
  constructor
  · intro calls
    refine ⟨(Component.nodesList [(runCalls calls).1.structure_]).length, ?_⟩
    rw [BasePipeline.to_graph]
    exact toGraphFuel_eq _ _ _ _ (le_refl _)
  · exact hiter_cyclic_never_empty

/-- C7: in to_graph and print_structure the stack-based traversal visits
siblings in the reverse of their insertion order (a node is followed by
the visit sequences of its children, last-inserted first), and the
relations list of to_graph is exactly the (parent_id, child_id) pairs in
the order the traversal emits them (grouped under each visited parent). -/
theorem claim_c7_traversal_order :
    (∀ c : Component, visit [c] =
      c :: c.children.reverse.flatMap fun ch => visit [ch]) ∧
    (∀ p : BasePipeline, p.to_graph.2 =
      (visit [p.structure_]).flatMap fun c =>
        c.children.map fun ch => (c.id, ch.id)) ∧
    (∀ p : BasePipeline, p.print_structure =
      ((visit [p.structure_]).filter fun c => decide (c.id ≠ -1)).map fun c =>
        (c.id, c.children.map Component.id)) := by
  refine ⟨?_, ?_, ?_⟩
  · intro c
    rw [visit, visit_flatMap]
    simp
  · intro p
    rw [BasePipeline.to_graph, toGraphAux_eq]
    simp
  · intro p
    rw [BasePipeline.print_structure, printStructAux_eq]

/-- C8: the code's job id is NOT the model name followed by an underscore
and a yymmdd_hhmmss timestamp: the format string "%y%m%d_%h%m%s" uses the
lowercase directives %h (abbreviated month name) and %s (epoch seconds)
instead of %H, %M, %S, so at 2020-01-02 03:04:05 the code produces
"m_200102_Jan011577934245" where the documented format would give
"m_200102_030405". -/
theorem claim_c8_job_id_format :
    job_id "m" sampleTime = "m_200102_Jan011577934245" ∧
    job_id_spec "m" sampleTime = "m_200102_030405" ∧
    job_id "m" sampleTime ≠ job_id_spec "m" sampleTime := by
  refine ⟨by decide, by decide, by decide⟩
